import Mathlib

/-!
A shallow embedding of the recursive tree-reconstruction core of the
Cassiopeia repository: the graph-percolation split of
`cassiopeia/solver/PercolationSolver.py`, together with the vanilla greedy
split and the recursive partitioning harness.  Similarity scores are
modelled as integers (every concrete score in scope is one), the
floating-point neighbor-joining distances as exact integer fractions,
pandas row access as a function from integer row indices to state vectors,
and the networkx graph as a node list plus an undirected edge list.  Character states are integers and the missing-data sentinel is
an integer distinct from all valid states.
-/

/-- Ordered pairs produced by `itertools.combinations(samples, 2)`: each
element paired with every later element, in list order. -/
def combinations : List Nat → List (Nat × Nat)
  | [] => []
  | x :: rest => rest.map (fun y => (x, y)) ++ combinations rest

/-- One union step of the connected-component computation: all current
components touching either endpoint of the edge are merged into one. -/
def mergeStep (comps : List (List Nat)) (e : Nat × Nat) : List (List Nat) :=
  let touched := comps.filter (fun c => c.contains e.1 || c.contains e.2)
  let untouched := comps.filter (fun c => !(c.contains e.1 || c.contains e.2))
  match touched with
  | [] => comps
  | _ :: _ => touched.flatten :: untouched

/-- The partition of `nodes` into connected components of the undirected
graph with edge list `edges`, in unspecified component order. -/
def rawComponents (nodes : List Nat) (edges : List (Nat × Nat)) : List (List Nat) :=
  edges.foldl mergeStep (nodes.map fun v => [v])

/-- Re-emit the components of `raw` in order of first appearance of a
member in the node list, each component ordered by the node list, matching
the iteration order of `networkx.connected_components`.  The fuel argument
bounds the recursion; the length of the node list always suffices because
the work list strictly shrinks. -/
def orderComponentsAux (raw : List (List Nat)) : Nat → List Nat → List (List Nat)
  | _, [] => []
  | 0, _ :: _ => []
  | fuel + 1, v :: rest =>
    match raw.find? (fun c => c.contains v) with
    | some c =>
      (v :: rest.filter (fun u => c.contains u)) ::
        orderComponentsAux raw fuel (rest.filter (fun u => !(c.contains u)))
    | none => [v] :: orderComponentsAux raw fuel rest

/-- Embedding of `list(nx.connected_components(G))` for the graph with the
given node and undirected edge lists. -/
def connected_components (nodes : List Nat) (edges : List (Nat × Nat)) : List (List Nat) :=
  orderComponentsAux (rawComponents nodes edges) nodes.length nodes

/-- The percolation while-loop of `PercolationSolver.perform_split`: while
at most one connected component exists, pop the minimum remaining edge
weight and delete every edge carrying it.  The source sorts the distinct
weights in descending order and pops from the end of that list, which
consumes the distinct weights in ascending order; `sw` is that ascending
list here and the pop takes its head.  Popping from an exhausted list is an
`IndexError` in the source, modelled as `none`. -/
def percolateAsc (nodes : List Nat) (ewp : Int → List (Nat × Nat)) :
    List Int → List (Nat × Nat) → Option (List (List Nat))
  | sw, edges =>
    if (connected_components nodes edges).length ≤ 1 then
      match sw with
      | [] => none
      | w :: rest =>
        percolateAsc nodes ewp rest (edges.filter (fun e => !((ewp w).contains e)))
    else some (connected_components nodes edges)

/-- Configuration of a `PercolationSolver`, as set up by its constructor:
the deduplicated character matrix (row access by integer index), the
missing-data sentinel, the prior-derived weights (an abstract type `W`
passed through to the similarity function), the similarity function and
the inclusion threshold. -/
structure PercSolver (W : Type) where
  unique_character_matrix : Nat → List Int
  missing_char : Int
  weights : W
  similarity_function : List Int → List Int → Int → W → Int
  threshold : Int

/-- The weighted edge list built by the first loop of `perform_split`: one
entry per sample pair whose similarity reaches the threshold, in
`itertools.combinations` order, tagged with its similarity score. -/
def weightedEdges {W : Type} (S : PercSolver W) (samples : List Nat) :
    List ((Nat × Nat) × Int) :=
  (combinations samples).filterMap fun p =>
    let s := S.similarity_function (S.unique_character_matrix p.1)
      (S.unique_character_matrix p.2) S.missing_char S.weights
    if S.threshold ≤ s then some (p, s) else none

/-- The edge bucket of one similarity weight, the value
`edge_weights_to_pairs[w]` of the source. -/
def edgePairsOfWeight {W : Type} (S : PercSolver W) (samples : List Nat) (w : Int) :
    List (Nat × Nat) :=
  ((weightedEdges S samples).filter (fun we => we.2 == w)).map (·.1)

/-- The connected components left once the percolation loop has finished,
`none` when the loop would pop from an exhausted weight list. -/
def finalComponents {W : Type} (S : PercSolver W) (samples : List Nat) :
    Option (List (List Nat)) :=
  percolateAsc samples (edgePairsOfWeight S samples)
    (List.insertionSort (· ≤ ·) (((weightedEdges S samples).map (·.2)).dedup))
    ((weightedEdges S samples).map (·.1))

/-- Modelled from the spec: `solver_utilities.get_lca_characters` is not
under `src/`.  Section 4.5 of the design document: per character position,
if every non-missing entry agrees on one state that state is ancestral, a
disagreement yields the unmutated root marker 0, and an all-missing
position stays missing. -/
def get_lca_characters (vecs : List (List Int)) (missing_char : Int) : List Int :=
  (List.range (vecs.headD []).length).map fun p =>
    let states :=
      ((vecs.map (fun v => v.getD p missing_char)).filter
        (fun s => !(s == missing_char))).dedup
    match states with
    | [] => missing_char
    | [s] => s
    | _ :: _ :: _ => 0

/-- Binary trees over taxon indices, the topologies produced by the
neighbor-joining merge subroutine. -/
inductive NJTree where
  | leaf : Nat → NJTree
  | node : NJTree → NJTree → NJTree

/-- Leaf taxa of a neighbor-joining tree, in depth-first order. -/
def NJTree.leaves : NJTree → List Nat
  | leaf c => [c]
  | node l r => l.leaves ++ r.leaves

/-- Leaves of a forest, in forest order. -/
def forestLeaves (ts : List NJTree) : List Nat :=
  (ts.map NJTree.leaves).flatten

/-- All index pairs i < j < n, ordered lexicographically. -/
def pairsUnder (n : Nat) : List (Nat × Nat) :=
  ((List.range n).map (fun i =>
    ((List.range n).filter (fun j => i < j)).map (fun j => (i, j)))).flatten

/-- Fractions of integers with positive denominator, kept unreduced: the
exact-arithmetic stand-in for the floating-point distances of the
neighbor-joining subroutine.  All operations are plain integer arithmetic,
so concrete runs evaluate inside the kernel. -/
structure Frac where
  num : Int
  den : Int

/-- A fraction with denominator one. -/
def Frac.ofInt (n : Int) : Frac := ⟨n, 1⟩

/-- Exact addition of fractions, without reduction. -/
def Frac.add (a b : Frac) : Frac := ⟨a.num * b.den + b.num * a.den, a.den * b.den⟩

/-- Exact subtraction of fractions, without reduction. -/
def Frac.sub (a b : Frac) : Frac := ⟨a.num * b.den - b.num * a.den, a.den * b.den⟩

/-- Exact multiplication of fractions, without reduction. -/
def Frac.mul (a b : Frac) : Frac := ⟨a.num * b.num, a.den * b.den⟩

/-- Exact division by two. -/
def Frac.half (a : Frac) : Frac := ⟨a.num, a.den * 2⟩

/-- Value comparison of fractions by cross multiplication; correct because
denominators stay positive by construction. -/
def Frac.blt (a b : Frac) : Bool := a.num * b.den < b.num * a.den

/-- First pair attaining the minimum of `f`, scanning left to right. -/
def argminBy (f : Nat × Nat → Frac) : List (Nat × Nat) → Option (Nat × Nat)
  | [] => none
  | p :: rest =>
    some (rest.foldl (fun best x => if (f x).blt (f best) then x else best) p)

/-- Sum of the distances from taxon i to every current taxon. -/
def rowSum (n : Nat) (d : Nat → Nat → Frac) (i : Nat) : Frac :=
  ((List.range n).map (fun k => d i k)).foldl Frac.add (Frac.ofInt 0)

/-- Modelled from the spec: the Q-criterion of standard neighbor joining,
the corrected distance minimized when choosing the pair to join. -/
def njQ (n : Nat) (d : Nat → Nat → Frac) (i j : Nat) : Frac :=
  (((Frac.ofInt ((n : Int) - 2)).mul (d i j)).sub (rowSum n d i)).sub (rowSum n d j)

/-- State of the neighbor-joining loop: the current forest and the
distance function on current forest indices. -/
structure NJState where
  trees : List NJTree
  d : Nat → Nat → Frac

/-- Modelled from the spec: one round of standard neighbor joining, as
described in section 4.4 of the design document (the `NeighborJoiningSolver`
is not under `src/`): join the Q-minimal pair i < j into a new internal
node placed first, and recompute distances to the joined node by the usual
average-minus-separation update. -/
def joinRound (st : NJState) : NJState :=
  match argminBy (fun p => njQ st.trees.length st.d p.1 p.2)
      (pairsUnder st.trees.length) with
  | none => st
  | some (i, j) =>
    let ti := st.trees.getD i (NJTree.leaf 0)
    let tj := st.trees.getD j (NJTree.leaf 0)
    let rest := (st.trees.eraseIdx j).eraseIdx i
    let oldIdx := fun m => if m < i then m else if m + 1 < j then m + 1 else m + 2
    let d' := fun a b =>
      if a = b then Frac.ofInt 0
      else if a = 0 then
        (((st.d i (oldIdx (b - 1))).add (st.d j (oldIdx (b - 1)))).sub (st.d i j)).half
      else if b = 0 then
        (((st.d i (oldIdx (a - 1))).add (st.d j (oldIdx (a - 1)))).sub (st.d i j)).half
      else st.d (oldIdx (a - 1)) (oldIdx (b - 1))
    { trees := NJTree.node ti tj :: rest, d := d' }

/-- The joining loop: rounds run while more than two subtrees remain.  The
fuel only bounds the recursion; the initial forest size always suffices
because every round shrinks the forest by one. -/
def njLoop : Nat → NJState → NJState
  | 0, st => st
  | fuel + 1, st => if st.trees.length ≤ 2 then st else njLoop fuel (joinRound st)

/-- Modelled from the spec: the neighbor-joining merge subroutine over
taxa 0, ..., k-1 with initial distances `d`.  When two subtrees remain
they are joined under the root, the arbitrarily rooted view of the
unrooted result; the construction introduces no unifurcations, so the
collapse pass of the source is the identity here. -/
def neighbor_joining (k : Nat) (d : Nat → Nat → Frac) : NJTree :=
  match (njLoop k { trees := (List.range k).map NJTree.leaf, d := d }).trees with
  | [t1, t2] => NJTree.node t1 t2
  | [t] => t
  | _ => NJTree.leaf 0

/-- The ancestral state vector of one connected component, the entry
`lcas[i]` of the source. -/
def lcaOf {W : Type} (S : PercSolver W) (cc : List (List Nat)) (i : Nat) : List Int :=
  get_lca_characters ((cc.getD i []).map S.unique_character_matrix) S.missing_char

/-- Negative similarity of two component ancestors, the dissimilarity
handed to the neighbor-joining subroutine by the source. -/
def njDistance {W : Type} (S : PercSolver W) (cc : List (List Nat)) (i j : Nat) : Frac :=
  Frac.ofInt (-1 * S.similarity_function (lcaOf S cc i) (lcaOf S cc j)
    S.missing_char S.weights)

/-- The clusters of component indices read off the root of the
neighbor-joining tree, one per child subtree. -/
def rootClusters : NJTree → List (List Nat)
  | NJTree.node l r => [NJTree.leaves l, NJTree.leaves r]
  | NJTree.leaf c => [[c]]

/-- The merge path of `perform_split` for more than two connected
components: per-component ancestral vectors via `get_lca_characters`,
neighbor joining on negative similarity, and the root's child subtrees
expanded back to member samples. -/
def njMerge {W : Type} (S : PercSolver W) (cc : List (List Nat)) : List (List Nat) :=
  (rootClusters (neighbor_joining cc.length (njDistance S cc))).map
    (fun cluster => (cluster.map (fun ci => cc.getD ci [])).flatten)

/-- Embedding of `PercolationSolver.perform_split`: build the similarity
graph, return `(samples, [])` if it has no edges, percolate until at least
two components exist, and merge more than two components down to two via
neighbor joining.  The result is the list of returned groups; `none`
models the `IndexError` of popping an exhausted weight list. -/
def perform_split {W : Type} (S : PercSolver W) (samples : List Nat) :
    Option (List (List Nat)) :=
  if (weightedEdges S samples).length = 0 then some [samples, []]
  else
    match finalComponents S samples with
    | none => none
    | some cc => if 2 < cc.length then some (njMerge S cc) else some cc

/-- Modelled from the spec: `similarity_functions.hamming_similarity` is
not under `src/`.  The design document describes it as a count of shared
mutations: positions where both vectors carry the same state, that state
being neither missing nor the unmutated root state 0.  The weights
argument of the source scales each shared mutation; the unweighted
variant used by the examples takes a unit weights value. -/
def hamming_similarity (s1 s2 : List Int) (missing_char : Int) (_weights : Unit) : Int :=
  (s1.zip s2).foldl
    (fun acc p => if p.1 = p.2 ∧ p.1 ≠ missing_char ∧ p.1 ≠ 0 then acc + 1 else acc) 0

/-- Configuration of a `VanillaGreedySolver`: the character matrix (row
access by integer index), the missing-data sentinel, the prior-derived
weight of each (character, state) pair (uniformly one without priors) and
the injected missing-data classifier, which assigns a sample with missing
data to the left (true) or right (false) side given the two sides built
so far. -/
structure VanillaGreedy where
  character_matrix : Nat → List Int
  missing_char : Int
  weights : Nat → Int → Int
  missing_data_classifier : Nat → List Nat → List Nat → Bool

/-- The state of one sample at one character. -/
def vg_value (S : VanillaGreedy) (s : Nat) (char : Nat) : Int :=
  (S.character_matrix s).getD char 0

/-- Distribute the samples with missing data at the split character, one
at a time, to the side chosen by the missing-data classifier. -/
def assign_missing (classifier : Nat → List Nat → List Nat → Bool) :
    List Nat → List Nat × List Nat → List Nat × List Nat
  | [], lr => lr
  | s :: rest, (l, r) =>
    if classifier s l r then assign_missing classifier rest (l ++ [s], r)
    else assign_missing classifier rest (l, r ++ [s])

/-- Modelled from the spec: `VanillaGreedySolver.perform_split` is an
unimplemented stub (its body is `pass`) under `src/`.  Section 4.2 of the
design document: samples carrying the split state at the split character
go left, samples with any other non-missing state go right, and samples
with missing data there are resolved by the injected missing-data
classifier. -/
def vg_perform_split (S : VanillaGreedy) (samples : List Nat)
    (split : Nat × Int) : List Nat × List Nat :=
  assign_missing S.missing_data_classifier
    ((samples.filter (fun s => !(vg_value S s split.1 == split.2))).filter
      (fun s => vg_value S s split.1 == S.missing_char))
    (samples.filter (fun s => vg_value S s split.1 == split.2),
      (samples.filter (fun s => !(vg_value S s split.1 == split.2))).filter
        (fun s => !(vg_value S s split.1 == S.missing_char)))

/-- Modelled from the spec: `VanillaGreedySolver.find_split` is an
unimplemented stub under `src/`.  Section 4.2 of the design document: the
(character, state) pair of maximal weighted occurrence count among the
non-missing mutated states observed in the samples, ties broken by lowest
character index then lowest state value. -/
def vg_find_split (S : VanillaGreedy) (samples : List Nat) : Nat × Int :=
  let numChars := (S.character_matrix (samples.headD 0)).length
  let pairs :=
    ((List.range numChars).map (fun c =>
      (List.insertionSort (· ≤ ·)
        (((samples.map (fun s => vg_value S s c)).filter
          (fun v => !(v == S.missing_char) && !(v == 0))).dedup)).map
        (fun v => (c, v)))).flatten
  let score := fun (p : Nat × Int) =>
    (samples.filter (fun s => vg_value S s p.1 == p.2)).length * (S.weights p.1 p.2).toNat
  match pairs with
  | [] => (0, 0)
  | p :: rest => rest.foldl (fun best q => if score best < score q then q else best) p

/-- Trees built by the recursive partitioning harness: leaves carry sample
groups and every internal node of the modelled harness is binary. -/
inductive HTree where
  | leaf : List Nat → HTree
  | node : HTree → HTree → HTree

/-- Number of leaves of a harness tree. -/
def leafCount : HTree → Nat
  | .leaf _ => 1
  | .node l r => leafCount l + leafCount r

/-- Number of internal nodes of a harness tree. -/
def internalCount : HTree → Nat
  | .leaf _ => 0
  | .node l r => internalCount l + internalCount r + 1

/-- Modelled from the spec: the recursive partitioning harness
(`GreedySolver.solve`) is not under `src/` and `VanillaGreedySolver.solve`
is an unimplemented stub.  Section 4.1 of the design document: an empty
sample set is an error, a singleton becomes a leaf, a split with an empty
side becomes a multi-member leaf, and otherwise the harness recurses on
the two sides of the strategy's split.  The fuel bounds the recursion
depth; the sample count always suffices for strategies that return
genuine partitions. -/
def solve_harness (strategy : List Nat → List Nat × List Nat) :
    Nat → List Nat → Option HTree
  | _, [] => none
  | _, [s] => some (HTree.leaf [s])
  | 0, _ :: _ :: _ => none
  | fuel + 1, samples =>
    let lr := strategy samples
    if lr.1.isEmpty || lr.2.isEmpty then some (HTree.leaf samples)
    else
      match solve_harness strategy fuel lr.1, solve_harness strategy fuel lr.2 with
      | some tl, some tr => some (HTree.node tl tr)
      | _, _ => none

/-- Modelled from the spec: `VanillaGreedySolver.solve`, the harness run
with the vanilla greedy split strategy. -/
def vanilla_solve (S : VanillaGreedy) (fuel : Nat) (samples : List Nat) : Option HTree :=
  solve_harness (fun smp => vg_perform_split S smp (vg_find_split S smp)) fuel samples

/-- The four-sample character matrix of the end-to-end example: rows
[1,0], [1,0], [0,1], [0,1]. -/
def characterMatrixExample : Nat → List Int :=
  fun i => [[1, 0], [1, 0], [0, 1], [0, 1]].getD i []

/-- The percolation solver of the end-to-end example: hamming-style
similarity, missing marker -1, threshold 0. -/
def solverExample : PercSolver Unit :=
  { unique_character_matrix := characterMatrixExample, missing_char := -1,
    weights := (), similarity_function := hamming_similarity, threshold := 0 }

/-- A six-sample character matrix forming three similarity clusters
(rows 0 and 1, rows 2 and 3, rows 4 and 5 each share one mutation, with
no shared mutation across clusters). -/
def characterMatrixThree : Nat → List Int :=
  fun i => [[1, 0, 0], [1, 2, 0], [0, 3, 0], [0, 3, 4], [0, 0, 5], [2, 0, 5]].getD i []

/-- A percolation solver whose graph on all six samples has exactly three
connected components, exercising the neighbor-joining merge path. -/
def solverThree : PercSolver Unit :=
  { unique_character_matrix := characterMatrixThree, missing_char := -1,
    weights := (), similarity_function := hamming_similarity, threshold := 1 }

/-- A percolation solver whose similarity function always scores below
the threshold. -/
def solverBelow : PercSolver Unit :=
  { unique_character_matrix := fun _ => [], missing_char := -1, weights := (),
    similarity_function := fun _ _ _ _ => -1, threshold := 0 }

/-- One of two solvers with pointwise equal but syntactically different
configurations. -/
def solverDetA : PercSolver Unit :=
  { unique_character_matrix := fun _ => [1], missing_char := -1, weights := (),
    similarity_function := fun _ _ _ _ => 1, threshold := 0 }

/-- The other of two solvers with pointwise equal but syntactically
different configurations. -/
def solverDetB : PercSolver Unit :=
  { unique_character_matrix := fun _ => [0 + 1], missing_char := -1, weights := (),
    similarity_function := fun _ _ _ _ => 2 - 1, threshold := 0 }

/-- The node list of the concrete percolation-round example: a path of
three nodes. -/
def exampleNodes : List Nat := [0, 1, 2]

/-- The edge list of the concrete percolation-round example. -/
def exampleEdges : List (Nat × Nat) := [(0, 1), (1, 2)]

/-- The weight buckets of the concrete percolation-round example: the
edge 0-1 has weight 1 and the edge 1-2 has weight 2. -/
def exampleEwp : Int → List (Nat × Nat) :=
  fun w => if w == 1 then [(0, 1)] else if w == 2 then [(1, 2)] else []

/-- A vanilla greedy configuration over three samples whose states at
character 0 are the split state, another state, and missing. -/
def vgExample : VanillaGreedy :=
  { character_matrix := fun i => [[1, 0], [2, 0], [-1, 0]].getD i [],
    missing_char := -1, weights := fun _ _ => 1,
    missing_data_classifier := fun _ _ _ => true }

/-- A merge step never loses or duplicates a graph node. -/
theorem flatten_mergeStep (comps : List (List Nat)) (e : Nat × Nat) :
    (mergeStep comps e).flatten.Perm comps.flatten := by
  unfold mergeStep
  cases h : comps.filter (fun c => c.contains e.1 || c.contains e.2) with
  | nil => exact List.Perm.refl _
  | cons c rest =>
    have h2 :=
      (List.filter_append_perm (fun c => c.contains e.1 || c.contains e.2) comps).flatten
    rw [List.flatten_append, h] at h2
    simpa only [List.flatten_cons, List.append_assoc] using h2

/-- Flattening the singleton components recovers the node list. -/
theorem flatten_map_singleton (l : List Nat) :
    (l.map (fun v => [v])).flatten = l := by
  induction l with
  | nil => rfl
  | cons x rest ih => simp [ih]

/-- The union-step fold partitions the node list. -/
theorem flatten_rawComponents (nodes : List Nat) (edges : List (Nat × Nat)) :
    (rawComponents nodes edges).flatten.Perm nodes := by
  unfold rawComponents
  suffices h : ∀ (es : List (Nat × Nat)) (acc : List (List Nat)),
      (es.foldl mergeStep acc).flatten.Perm acc.flatten by
    exact ((h edges _).trans (by rw [flatten_map_singleton]))
  intro es
  induction es with
  | nil => intro acc; exact List.Perm.refl _
  | cons e rest ih =>
    intro acc
    exact (ih (mergeStep acc e)).trans (flatten_mergeStep acc e)

/-- The ordering pass partitions whatever node list it is given, whatever
the raw component list is, provided the fuel covers the list length. -/
theorem flatten_orderComponentsAux (raw : List (List Nat)) :
    ∀ (fuel : Nat) (l : List Nat), l.length ≤ fuel →
      (orderComponentsAux raw fuel l).flatten.Perm l := by
  intro fuel
  induction fuel with
  | zero =>
    intro l hl
    have : l = [] := List.eq_nil_of_length_eq_zero (Nat.le_zero.mp hl)
    subst this
    exact List.Perm.refl _
  | succ fuel ih =>
    intro l hl
    cases l with
    | nil => exact List.Perm.refl _
    | cons v rest =>
      cases hfind : raw.find? (fun c => c.contains v) with
      | some c =>
        have hlen : (rest.filter (fun u => !(c.contains u))).length ≤ fuel := by
          have := List.length_filter_le (fun u => !(c.contains u)) rest
          simp only [List.length_cons] at hl
          omega
        have IH := ih (rest.filter (fun u => !(c.contains u))) hlen
        simp only [orderComponentsAux, hfind, List.flatten_cons, List.cons_append]
        have hsplit := List.filter_append_perm (fun u => c.contains u) rest
        exact ((List.Perm.append_left _ IH).cons v).trans (hsplit.cons v)
      | none =>
        simp only [orderComponentsAux, hfind, List.flatten_cons]
        have hlen : rest.length ≤ fuel := by
          simp only [List.length_cons] at hl; omega
        exact (ih rest hlen).cons v

/-- The connected components of any graph partition the node list: no node
is lost, none is duplicated. -/
theorem flatten_connected_components (nodes : List Nat) (edges : List (Nat × Nat)) :
    (connected_components nodes edges).flatten.Perm nodes :=
  flatten_orderComponentsAux _ nodes.length nodes (Nat.le_refl _)

/-- When every element of the raw component list is a singleton, the
ordering pass emits one component per node. -/
theorem orderComponentsAux_singleton_length (raw : List (List Nat))
    (hraw : ∀ c ∈ raw, ∃ x, c = [x]) :
    ∀ (fuel : Nat) (l : List Nat), l.length ≤ fuel → l.Nodup →
      (orderComponentsAux raw fuel l).length = l.length := by
  intro fuel
  induction fuel with
  | zero =>
    intro l hl _
    have : l = [] := List.eq_nil_of_length_eq_zero (Nat.le_zero.mp hl)
    subst this
    rfl
  | succ fuel ih =>
    intro l hl hnd
    cases l with
    | nil => rfl
    | cons v rest =>
      have hrest : rest.length ≤ fuel := by
        simp only [List.length_cons] at hl; omega
      have hndr := (List.nodup_cons.mp hnd).2
      have hvni := (List.nodup_cons.mp hnd).1
      cases hfind : raw.find? (fun c => c.contains v) with
      | some c =>
        obtain ⟨x, hx⟩ := hraw c (List.mem_of_find?_eq_some hfind)
        have hcv : c.contains v = true := by
          have h0 := List.find?_some hfind
          simpa using h0
        have hxv : c = [v] := by
          subst hx
          have : v ∈ [x] := List.elem_iff.mp hcv
          simp only [List.mem_singleton] at this
          rw [this]
        subst hxv
        have hfilter : rest.filter (fun u => !(([v] : List Nat).contains u)) = rest := by
          apply List.filter_eq_self.mpr
          intro u hu
          have : u ≠ v := fun he => hvni (he ▸ hu)
          simp [List.elem_iff, this]
        simp only [orderComponentsAux, hfind, hfilter, List.length_cons]
        rw [ih rest hrest hndr]
      | none =>
        simp only [orderComponentsAux, hfind, List.length_cons]
        rw [ih rest hrest hndr]

/-- With no edges, every node is its own connected component. -/
theorem connected_components_nil_length (nodes : List Nat) (h : nodes.Nodup) :
    (connected_components nodes []).length = nodes.length := by
  unfold connected_components rawComponents
  simp only [List.foldl_nil]
  apply orderComponentsAux_singleton_length
  · intro c hc
    obtain ⟨x, _, hx⟩ := List.mem_map.mp hc
    exact ⟨x, hx.symm⟩
  · exact Nat.le_refl _
  · exact h

/-- A successful percolation returns the components of some residual edge
set, and at least two of them. -/
theorem percolateAsc_eq_some (nodes : List Nat) (ewp : Int → List (Nat × Nat)) :
    ∀ (sw : List Int) (edges : List (Nat × Nat)) (cc : List (List Nat)),
      percolateAsc nodes ewp sw edges = some cc →
      2 ≤ cc.length ∧ ∃ E, cc = connected_components nodes E := by
  intro sw
  induction sw with
  | nil =>
    intro edges cc h
    rw [percolateAsc] at h
    by_cases hc : (connected_components nodes edges).length ≤ 1
    · simp [hc] at h
    · simp only [if_neg hc, Option.some.injEq] at h
      refine ⟨?_, edges, h.symm⟩
      rw [← h]
      omega
  | cons w rest ih =>
    intro edges cc h
    rw [percolateAsc] at h
    by_cases hc : (connected_components nodes edges).length ≤ 1
    · simp only [if_pos hc] at h
      exact ih _ _ h
    · simp only [if_neg hc, Option.some.injEq] at h
      refine ⟨?_, edges, h.symm⟩
      rw [← h]
      omega

/-- The percolation loop always returns when the graph has at least two
distinct nodes and every edge is accounted for by a remaining weight: once
the weights run out the edge set is empty and singleton components stop
the loop, so the pop never runs on an exhausted list. -/
theorem percolateAsc_isSome (nodes : List Nat) (ewp : Int → List (Nat × Nat))
    (hnd : nodes.Nodup) (h2 : 2 ≤ nodes.length) :
    ∀ (sw : List Int) (edges : List (Nat × Nat)),
      (∀ e ∈ edges, ∃ w ∈ sw, e ∈ ewp w) →
      (percolateAsc nodes ewp sw edges).isSome := by
  intro sw
  induction sw with
  | nil =>
    intro edges hcov
    have hE : edges = [] := by
      apply List.eq_nil_iff_forall_not_mem.mpr
      intro e he
      obtain ⟨w, hw, _⟩ := hcov e he
      exact absurd hw (List.not_mem_nil w)
    subst hE
    rw [percolateAsc]
    have hlen := connected_components_nil_length nodes hnd
    have hc : ¬((connected_components nodes ([] : List (Nat × Nat))).length ≤ 1) := by omega
    simp [hc]
  | cons w rest ih =>
    intro edges hcov
    rw [percolateAsc]
    by_cases hc : (connected_components nodes edges).length ≤ 1
    · simp only [if_pos hc]
      apply ih
      intro e he
      have hee := List.mem_filter.mp he
      obtain ⟨u, hu, heu⟩ := hcov e hee.1
      rcases List.mem_cons.mp hu with rfl | hu2
      · exfalso
        have hcontains : (ewp u).contains e = true := List.elem_iff.mpr heu
        rw [hcontains] at hee
        simp at hee
      · exact ⟨u, hu2, heu⟩
    · simp [hc]

/-- Both members of a combination pair come from the list. -/
theorem mem_combinations :
    ∀ {l : List Nat} {p : Nat × Nat}, p ∈ combinations l → p.1 ∈ l ∧ p.2 ∈ l := by
  intro l
  induction l with
  | nil => intro p h; simp [combinations] at h
  | cons x rest ih =>
    intro p h
    rw [combinations, List.mem_append] at h
    rcases h with h | h
    · obtain ⟨y, hy, rfl⟩ := List.mem_map.mp h
      exact ⟨List.mem_cons_self _ _, List.mem_cons_of_mem _ hy⟩
    · obtain ⟨h1, h2⟩ := ih h
      exact ⟨List.mem_cons_of_mem _ h1, List.mem_cons_of_mem _ h2⟩

/-- Combination pairs over a duplicate-free list have distinct members. -/
theorem mem_combinations_ne :
    ∀ {l : List Nat} {p : Nat × Nat}, l.Nodup → p ∈ combinations l → p.1 ≠ p.2 := by
  intro l
  induction l with
  | nil => intro p _ h; simp [combinations] at h
  | cons x rest ih =>
    intro p hnd h
    rw [combinations, List.mem_append] at h
    rcases h with h | h
    · obtain ⟨y, hy, rfl⟩ := List.mem_map.mp h
      intro he
      simp only at he
      exact (List.nodup_cons.mp hnd).1 (by rw [he]; exact hy)
    · exact ih (List.nodup_cons.mp hnd).2 h

/-- A list holding two distinct elements has at least two entries. -/
theorem two_le_length_of_mem_ne {l : List Nat} {a b : Nat}
    (ha : a ∈ l) (hb : b ∈ l) (hab : a ≠ b) : 2 ≤ l.length := by
  match l with
  | [] => simp at ha
  | [x] =>
    rw [List.mem_singleton] at ha hb
    exact absurd (ha.trans hb.symm) hab
  | x :: y :: t => simp only [List.length_cons]; omega

/-- Every weighted edge comes from a combination pair. -/
theorem weightedEdges_mem {W : Type} (S : PercSolver W) (samples : List Nat)
    {we : (Nat × Nat) × Int} (h : we ∈ weightedEdges S samples) :
    we.1 ∈ combinations samples := by
  unfold weightedEdges at h
  obtain ⟨p, hp, hsome⟩ := List.mem_filterMap.mp h
  dsimp only at hsome
  split at hsome
  · cases hsome
    exact hp
  · cases hsome

/-- Every edge of the similarity graph is covered by a weight of the
sorted deduplicated weight list, inside its own bucket. -/
theorem weightedEdges_cover {W : Type} (S : PercSolver W) (samples : List Nat) :
    ∀ e ∈ (weightedEdges S samples).map (·.1),
      ∃ w ∈ List.insertionSort (· ≤ ·) (((weightedEdges S samples).map (·.2)).dedup),
        e ∈ edgePairsOfWeight S samples w := by
  intro e he
  obtain ⟨we, hwe, rfl⟩ := List.mem_map.mp he
  refine ⟨we.2, ?_, ?_⟩
  · rw [List.mem_insertionSort]
    exact List.mem_dedup.mpr (List.mem_map.mpr ⟨we, hwe, rfl⟩)
  · unfold edgePairsOfWeight
    exact List.mem_map.mpr ⟨we, List.mem_filter.mpr ⟨hwe, by simp⟩, rfl⟩

/-- Removing an indexed element and putting it back in front is a
permutation. -/
theorem perm_get_cons_eraseIdx {α : Type} :
    ∀ (l : List α) (j : Nat) (h : j < l.length),
      l.Perm (l.get ⟨j, h⟩ :: l.eraseIdx j) := by
  intro l
  induction l with
  | nil => intro j h; simp at h
  | cons a t ih =>
    intro j h
    cases j with
    | zero => exact List.Perm.refl _
    | succ j =>
      have hj : j < t.length := by simpa using h
      simp only [List.get_cons_succ, List.eraseIdx_cons_succ]
      exact ((ih j hj).cons a).trans (List.Perm.swap _ _ _)

/-- Pulling two indexed elements to the front is a permutation. -/
theorem perm_two_eraseIdx {α : Type} (l : List α) (i j : Nat)
    (hij : i < j) (hj : j < l.length) :
    l.Perm (l.get ⟨i, by omega⟩ :: l.get ⟨j, hj⟩ :: (l.eraseIdx j).eraseIdx i) := by
  have h1 := perm_get_cons_eraseIdx l j hj
  have hi2 : i < (l.eraseIdx j).length := by
    rw [List.length_eraseIdx]
    simp only [hj, if_pos]
    omega
  have h2 := perm_get_cons_eraseIdx (l.eraseIdx j) i hi2
  have hgi : (l.eraseIdx j).get ⟨i, hi2⟩ = l.get ⟨i, by omega⟩ := by
    simp only [List.get_eq_getElem]
    rw [List.getElem_eraseIdx]
    simp [hij]
  refine h1.trans ?_
  refine ((h2.cons _).trans ?_)
  rw [hgi]
  exact List.Perm.swap _ _ _

/-- The combined list of leaves of a forest is invariant under forest
permutation. -/
theorem forestLeaves_perm {l1 l2 : List NJTree} (h : l1.Perm l2) :
    (forestLeaves l1).Perm (forestLeaves l2) :=
  (h.map NJTree.leaves).flatten

/-- Index pairs enumerate ordered positions below the bound. -/
theorem mem_pairsUnder {n : Nat} {p : Nat × Nat} (h : p ∈ pairsUnder n) :
    p.1 < p.2 ∧ p.2 < n := by
  unfold pairsUnder at h
  rw [List.mem_flatten] at h
  obtain ⟨inner, hinner, hp⟩ := h
  obtain ⟨i, _, rfl⟩ := List.mem_map.mp hinner
  obtain ⟨j, hj, rfl⟩ := List.mem_map.mp hp
  have hjf := List.mem_filter.mp hj
  refine ⟨by simpa using hjf.2, List.mem_range.mp hjf.1⟩

/-- With at least two indices the pair list is inhabited. -/
theorem pairsUnder_mem_01 {n : Nat} (h : 2 ≤ n) : (0, 1) ∈ pairsUnder n := by
  unfold pairsUnder
  rw [List.mem_flatten]
  refine ⟨_, List.mem_map.mpr ⟨0, List.mem_range.mpr (by omega), rfl⟩, ?_⟩
  exact List.mem_map.mpr
    ⟨1, List.mem_filter.mpr ⟨List.mem_range.mpr (by omega), by simp⟩, rfl⟩

/-- The running best of the minimum scan is the seed or a list member. -/
theorem foldl_choose_mem (f : Nat × Nat → Frac) :
    ∀ (l : List (Nat × Nat)) (b : Nat × Nat),
      l.foldl (fun best x => if (f x).blt (f best) then x else best) b = b ∨
        l.foldl (fun best x => if (f x).blt (f best) then x else best) b ∈ l := by
  intro l
  induction l with
  | nil => intro b; left; rfl
  | cons x rest ih =>
    intro b
    rw [List.foldl_cons]
    rcases ih (if (f x).blt (f b) then x else b) with h | h
    · rw [h]
      by_cases hc : (f x).blt (f b)
      · right; simp [hc]
      · left; simp [hc]
    · right; exact List.mem_cons_of_mem _ h

/-- The argmin scan returns a member of its list. -/
theorem argminBy_mem {f : Nat × Nat → Frac} {l : List (Nat × Nat)} {p : Nat × Nat}
    (h : argminBy f l = some p) : p ∈ l := by
  cases l with
  | nil => simp [argminBy] at h
  | cons q rest =>
    rw [argminBy, Option.some.injEq] at h
    rw [← h]
    rcases foldl_choose_mem f rest q with h2 | h2
    · rw [h2]; exact List.mem_cons_self _ _
    · exact List.mem_cons_of_mem _ h2

/-- One neighbor-joining round shrinks the forest by exactly one tree and
keeps the multiset of leaf taxa. -/
theorem joinRound_spec (st : NJState) (h3 : 3 ≤ st.trees.length) :
    (joinRound st).trees.length = st.trees.length - 1 ∧
      (forestLeaves (joinRound st).trees).Perm (forestLeaves st.trees) := by
  have h01 : (0, 1) ∈ pairsUnder st.trees.length := pairsUnder_mem_01 (by omega)
  cases hmin : argminBy (fun p => njQ st.trees.length st.d p.1 p.2)
      (pairsUnder st.trees.length) with
  | none =>
    exfalso
    cases hl : pairsUnder st.trees.length with
    | nil => rw [hl] at h01; simp at h01
    | cons q qs => rw [hl, argminBy] at hmin; simp at hmin
  | some p =>
    obtain ⟨i, j⟩ := p
    have hp := mem_pairsUnder (argminBy_mem hmin)
    have hij : i < j := hp.1
    have hjn : j < st.trees.length := hp.2
    have hin : i < st.trees.length := by omega
    have hjr : (joinRound st).trees =
        NJTree.node (st.trees.getD i (NJTree.leaf 0)) (st.trees.getD j (NJTree.leaf 0)) ::
          (st.trees.eraseIdx j).eraseIdx i := by
      unfold joinRound
      rw [hmin]
    have hl1 : (st.trees.eraseIdx j).length = st.trees.length - 1 := by
      rw [List.length_eraseIdx]
      simp [hjn]
    have hl2 : ((st.trees.eraseIdx j).eraseIdx i).length = st.trees.length - 2 := by
      rw [List.length_eraseIdx, hl1]
      have hi2 : i < st.trees.length - 1 := by omega
      simp only [hi2, if_pos]
      omega
    constructor
    · rw [hjr, List.length_cons, hl2]
      omega
    · rw [hjr]
      have hgdi : st.trees.getD i (NJTree.leaf 0) = st.trees.get ⟨i, hin⟩ := by
        rw [List.getD_eq_getElem _ _ hin]
        simp
      have hgdj : st.trees.getD j (NJTree.leaf 0) = st.trees.get ⟨j, hjn⟩ := by
        rw [List.getD_eq_getElem _ _ hjn]
        simp
      have hperm := perm_two_eraseIdx st.trees i j hij hjn
      have hflat := forestLeaves_perm hperm
      rw [hgdi, hgdj]
      refine List.Perm.trans ?_ hflat.symm
      unfold forestLeaves
      simp only [List.map_cons, List.flatten_cons, NJTree.leaves, List.append_assoc]
      exact List.Perm.refl _

/-- The joining loop ends with exactly two subtrees and the original
multiset of leaf taxa, whenever the fuel covers the forest size. -/
theorem njLoop_spec :
    ∀ (fuel : Nat) (st : NJState), st.trees.length ≤ fuel + 2 → 2 ≤ st.trees.length →
      (njLoop fuel st).trees.length = 2 ∧
        (forestLeaves (njLoop fuel st).trees).Perm (forestLeaves st.trees) := by
  intro fuel
  induction fuel with
  | zero =>
    intro st hle h2
    rw [njLoop]
    exact ⟨by omega, List.Perm.refl _⟩
  | succ fuel ih =>
    intro st hle h2
    rw [njLoop]
    by_cases hc : st.trees.length ≤ 2
    · simp only [if_pos hc]
      exact ⟨by omega, List.Perm.refl _⟩
    · simp only [if_neg hc]
      have h3 : 3 ≤ st.trees.length := by omega
      obtain ⟨hl, hp⟩ := joinRound_spec st h3
      have hrec := ih (joinRound st) (by omega) (by omega)
      exact ⟨hrec.1, hrec.2.trans hp⟩

/-- The leaves of the initial forest of leaf trees are the taxa. -/
theorem forestLeaves_leaf_range (k : Nat) :
    forestLeaves ((List.range k).map NJTree.leaf) = List.range k := by
  unfold forestLeaves
  rw [List.map_map]
  have hcomp : NJTree.leaves ∘ NJTree.leaf = fun c => [c] := rfl
  rw [hcomp, flatten_map_singleton]

/-- For at least two taxa, neighbor joining returns a root bifurcation
whose two subtrees hold every taxon exactly once. -/
theorem neighbor_joining_spec (k : Nat) (d : Nat → Nat → Frac) (hk : 2 ≤ k) :
    ∃ t1 t2, neighbor_joining k d = NJTree.node t1 t2 ∧
      (t1.leaves ++ t2.leaves).Perm (List.range k) := by
  have hspec := njLoop_spec k { trees := (List.range k).map NJTree.leaf, d := d }
    (by simp only [List.length_map, List.length_range]; omega)
    (by simp only [List.length_map, List.length_range]; omega)
  obtain ⟨hl2, hperm⟩ := hspec
  obtain ⟨t1, t2, hab⟩ := List.length_eq_two.mp hl2
  refine ⟨t1, t2, ?_, ?_⟩
  · unfold neighbor_joining
    rw [hab]
  · have : forestLeaves [t1, t2] = t1.leaves ++ t2.leaves := by
      unfold forestLeaves
      simp [NJTree.leaves]
    rw [← this, ← forestLeaves_leaf_range k]
    rw [← hab]
    exact hperm

/-- Reading every index of a list back through a defaulted access yields
the list itself. -/
theorem map_getD_range {α : Type} (d : α) :
    ∀ (l : List α), (List.range l.length).map (fun i => l.getD i d) = l := by
  intro l
  induction l with
  | nil => rfl
  | cons a t ih =>
    rw [List.length_cons, List.range_succ_eq_map, List.map_cons, List.map_map]
    have hcomp : ((fun i => (a :: t).getD i d) ∘ Nat.succ) = fun i => t.getD i d := rfl
    rw [hcomp, ih]
    rfl

/-- Flattening cluster-wise expansions equals expanding the flattened
cluster list. -/
theorem flatten_map_flatten {α β : Type} (g : α → List β) :
    ∀ (L : List (List α)),
      (L.map (fun cl => (cl.map g).flatten)).flatten = ((L.flatten).map g).flatten := by
  intro L
  induction L with
  | nil => rfl
  | cons c rest ih =>
    simp only [List.map_cons, List.flatten_cons, List.map_append, List.flatten_append, ih]

/-- The neighbor-joining merge of more than two components produces
exactly two groups holding the original component members exactly once. -/
theorem njMerge_spec {W : Type} (S : PercSolver W) (cc : List (List Nat))
    (h3 : 3 ≤ cc.length) :
    (njMerge S cc).length = 2 ∧ (njMerge S cc).flatten.Perm cc.flatten := by
  obtain ⟨t1, t2, hnj, hleaves⟩ :=
    neighbor_joining_spec cc.length (njDistance S cc) (by omega)
  unfold njMerge
  rw [hnj]
  constructor
  · rfl
  · simp only [rootClusters]
    rw [flatten_map_flatten (fun ci => cc.getD ci []) [t1.leaves, t2.leaves]]
    have hflat : ([t1.leaves, t2.leaves] : List (List Nat)).flatten = t1.leaves ++ t2.leaves := by
      simp
    rw [hflat]
    have hmap := (hleaves.map (fun ci => cc.getD ci [])).flatten
    refine hmap.trans ?_
    rw [map_getD_range ([] : List Nat) cc]

/-- Core partition property of `perform_split` over a duplicate-free
sample list: the call returns, with exactly two pairwise disjoint groups
whose union is the input, in each of the three branches. -/
theorem perform_split_partition_aux {W : Type} (S : PercSolver W) (samples : List Nat)
    (hnd : samples.Nodup) :
    ∃ groups, perform_split S samples = some groups ∧ groups.length = 2 ∧
      groups.flatten.Perm samples ∧ List.Pairwise List.Disjoint groups := by
  unfold perform_split
  by_cases hE : (weightedEdges S samples).length = 0
  · refine ⟨[samples, []], by simp [hE], rfl, by simp, ?_⟩
    simp [List.Disjoint]
  · have hedges_ne : weightedEdges S samples ≠ [] := by
      intro h0; rw [h0] at hE; simp at hE
    obtain ⟨we, hwe⟩ := List.exists_mem_of_ne_nil _ hedges_ne
    have hcomb := weightedEdges_mem S samples hwe
    have hmm := mem_combinations hcomb
    have hpne := mem_combinations_ne hnd hcomb
    have h2 : 2 ≤ samples.length := two_le_length_of_mem_ne hmm.1 hmm.2 hpne
    have hsome : (finalComponents S samples).isSome := by
      unfold finalComponents
      exact percolateAsc_isSome samples (edgePairsOfWeight S samples) hnd h2 _ _
        (weightedEdges_cover S samples)
    obtain ⟨cc, hcc⟩ := Option.isSome_iff_exists.mp hsome
    have hcc2 : percolateAsc samples (edgePairsOfWeight S samples)
        (List.insertionSort (· ≤ ·) (((weightedEdges S samples).map (·.2)).dedup))
        ((weightedEdges S samples).map (·.1)) = some cc := by
      unfold finalComponents at hcc
      exact hcc
    obtain ⟨hcc2, E, hccE⟩ :=
      percolateAsc_eq_some samples (edgePairsOfWeight S samples) _ _ cc hcc2
    have hflat : cc.flatten.Perm samples := by
      rw [hccE]; exact flatten_connected_components samples E
    rw [if_neg hE, hcc]
    by_cases h3 : 2 < cc.length
    · obtain ⟨hlen2, hperm2⟩ := njMerge_spec S cc (by omega)
      have hfl := hperm2.trans hflat
      refine ⟨njMerge S cc, by simp [h3], hlen2, hfl, ?_⟩
      have hndf : (njMerge S cc).flatten.Nodup := (hfl.nodup_iff).mpr hnd
      exact (List.nodup_flatten.mp hndf).2
    · refine ⟨cc, by simp [h3], by omega, hflat, ?_⟩
      have hndf : cc.flatten.Nodup := (hflat.nodup_iff).mpr hnd
      exact (List.nodup_flatten.mp hndf).2

/-- Distributing the missing samples preserves the combined contents of
the two sides. -/
theorem assign_missing_flatten (c : Nat → List Nat → List Nat → Bool) :
    ∀ (ms l r : List Nat),
      ((assign_missing c ms (l, r)).1 ++ (assign_missing c ms (l, r)).2).Perm
        ((l ++ r) ++ ms) := by
  intro ms
  induction ms with
  | nil => intro l r; simp [assign_missing]
  | cons s rest ih =>
    intro l r
    rw [assign_missing]
    by_cases hc : c s l r
    · simp only [if_pos hc]
      refine (ih (l ++ [s]) r).trans ?_
      have h1 : ((l ++ [s]) ++ r) ++ rest = (l ++ s :: r) ++ rest := by simp
      rw [h1]
      refine (List.Perm.append_right rest List.perm_middle).trans ?_
      exact List.perm_middle.symm
    · simp only [if_neg hc]
      refine (ih l (r ++ [s])).trans ?_
      simp [List.append_assoc]

/-- The left side determined before classification stays at the front of
the final left side. -/
theorem assign_missing_left_sub (c : Nat → List Nat → List Nat → Bool) :
    ∀ (ms l r : List Nat), ∃ t, (assign_missing c ms (l, r)).1 = l ++ t := by
  intro ms
  induction ms with
  | nil => intro l r; exact ⟨[], by simp [assign_missing]⟩
  | cons s rest ih =>
    intro l r
    rw [assign_missing]
    by_cases hc : c s l r
    · simp only [if_pos hc]
      obtain ⟨t, ht⟩ := ih (l ++ [s]) r
      exact ⟨[s] ++ t, by rw [ht]; simp⟩
    · simp only [if_neg hc]
      exact ih l (r ++ [s])

/-- The right side determined before classification stays at the front of
the final right side. -/
theorem assign_missing_right_sub (c : Nat → List Nat → List Nat → Bool) :
    ∀ (ms l r : List Nat), ∃ t, (assign_missing c ms (l, r)).2 = r ++ t := by
  intro ms
  induction ms with
  | nil => intro l r; exact ⟨[], by simp [assign_missing]⟩
  | cons s rest ih =>
    intro l r
    rw [assign_missing]
    by_cases hc : c s l r
    · simp only [if_pos hc]
      exact ih (l ++ [s]) r
    · simp only [if_neg hc]
      obtain ⟨t, ht⟩ := ih l (r ++ [s])
      exact ⟨[s] ++ t, by rw [ht]; simp⟩

/-- Claim C1: for every duplicate-free list of sample row indices,
`PercolationSolver.perform_split` returns exactly two pairwise disjoint
groups whose union equals the input sample set exactly, in every branch
(zero edges, exactly two components, and the neighbor-joining merge of
more than two components). -/
theorem perform_split_partition {W : Type} (S : PercSolver W) (samples : List Nat)
    (hnd : samples.Nodup) :
    ∃ groups, perform_split S samples = some groups ∧ groups.length = 2 ∧
      groups.flatten.Perm samples ∧ List.Pairwise List.Disjoint groups :=
  perform_split_partition_aux S samples hnd

/-- Witness for C1: the partition property evaluated on the concrete
three-cluster instance, which takes the neighbor-joining branch. -/
theorem perform_split_partition_witness :
    ∃ groups, perform_split solverThree [0, 1, 2, 3, 4, 5] = some groups ∧
      groups.length = 2 ∧ groups.flatten.Perm [0, 1, 2, 3, 4, 5] ∧
      List.Pairwise List.Disjoint groups :=
  perform_split_partition solverThree [0, 1, 2, 3, 4, 5] (by decide)

/-- Claim C5: when every sample pair scores strictly below the threshold
the similarity graph has no edges and `perform_split` returns the whole
input on the left with an empty right side instead of raising. -/
theorem perform_split_no_edges {W : Type} (S : PercSolver W) (samples : List Nat)
    (hbelow : ∀ p ∈ combinations samples,
      S.similarity_function (S.unique_character_matrix p.1)
        (S.unique_character_matrix p.2) S.missing_char S.weights < S.threshold) :
    perform_split S samples = some [samples, []] := by
  have hE : weightedEdges S samples = [] := by
    apply List.eq_nil_iff_forall_not_mem.mpr
    intro we hwe
    unfold weightedEdges at hwe
    obtain ⟨p, hp, hsome⟩ := List.mem_filterMap.mp hwe
    dsimp only at hsome
    split at hsome
    · rename_i hge
      exact absurd hge (not_le.mpr (hbelow p hp))
    · cases hsome
  unfold perform_split
  rw [hE]
  simp

/-- Witness for C5: a solver scoring every pair at -1 against threshold 0
returns the degenerate partition on two samples. -/
theorem perform_split_no_edges_witness :
    perform_split solverBelow [0, 1] = some [[0, 1], []] :=
  perform_split_no_edges solverBelow [0, 1] (by decide)

/-- Claim C6: over a duplicate-free sample list `perform_split` always
terminates with a value; the minimum-weight pop never runs on an
exhausted weight list. -/
theorem perform_split_terminates {W : Type} (S : PercSolver W) (samples : List Nat)
    (hnd : samples.Nodup) : (perform_split S samples).isSome := by
  obtain ⟨groups, hg, _⟩ := perform_split_partition_aux S samples hnd
  rw [hg]
  rfl

/-- Witness for C6: termination evaluated on the concrete four-sample
example, whose percolation loop runs one round. -/
theorem perform_split_terminates_witness :
    (perform_split solverExample [0, 1, 2, 3]).isSome :=
  perform_split_terminates solverExample [0, 1, 2, 3] (by decide)

/-- Claim C9: `perform_split` is deterministic; two runs over the same
samples with pointwise equal configurations return identical partitions. -/
theorem perform_split_deterministic {W : Type} (S1 S2 : PercSolver W) (samples : List Nat)
    (hcm : ∀ i, S1.unique_character_matrix i = S2.unique_character_matrix i)
    (hmc : S1.missing_char = S2.missing_char)
    (hw : S1.weights = S2.weights)
    (hsim : ∀ a b m w, S1.similarity_function a b m w = S2.similarity_function a b m w)
    (ht : S1.threshold = S2.threshold) :
    perform_split S1 samples = perform_split S2 samples := by
  have h1 : S1 = S2 := by
    obtain ⟨cm1, m1, w1, f1, t1⟩ := S1
    obtain ⟨cm2, m2, w2, f2, t2⟩ := S2
    simp only at hcm hmc hw hsim ht
    simp only [PercSolver.mk.injEq]
    exact ⟨funext hcm, hmc, hw,
      funext fun a => funext fun b => funext fun m => funext fun w => hsim a b m w, ht⟩
  rw [h1]

/-- Witness for C9: two syntactically different but pointwise equal
configurations produce the same partition on the same samples. -/
theorem perform_split_deterministic_witness :
    perform_split solverDetA [0, 1] = perform_split solverDetB [0, 1] :=
  perform_split_deterministic solverDetA solverDetB [0, 1]
    (fun _ => rfl) rfl rfl (fun _ _ _ _ => rfl) rfl

/-- Claim C10: `perform_split` on the empty samples list returns the pair
of empty groups rather than raising: with no nodes there are no pairs, the
graph has zero edges, and the zero-edge branch fires. -/
theorem perform_split_empty {W : Type} (S : PercSolver W) :
    perform_split S [] = some [[], []] :=
  rfl

/-- Counterexample to claim C2 as stated: on the four-sample example the
similarity graph is not two disconnected dense pairs; the inclusive
threshold comparison admits every pair at weight zero, so the freshly
built graph has a single connected component, and a removal round is
required. -/
theorem perform_split_example_counterexample :
    ¬ ((connected_components [0, 1, 2, 3]
        ((weightedEdges solverExample [0, 1, 2, 3]).map (·.1))).length = 2) := by
  decide

/-- Claim C2 as amended: on the four-sample example the graph is complete
(six edges, the four cross pairs entering at weight zero), forming one
component; a single percolation round removes the weight-zero class,
leaving the two dense pairs as components; and `perform_split` returns
the partition (0 1 | 2 3). -/
theorem perform_split_example_amended :
    (weightedEdges solverExample [0, 1, 2, 3]).length = 6 ∧
      connected_components [0, 1, 2, 3]
        ((weightedEdges solverExample [0, 1, 2, 3]).map (·.1)) = [[0, 1, 2, 3]] ∧
      connected_components [0, 1, 2, 3]
        (((weightedEdges solverExample [0, 1, 2, 3]).map (·.1)).filter
          (fun e => !((edgePairsOfWeight solverExample [0, 1, 2, 3] 0).contains e)))
        = [[0, 1], [2, 3]] ∧
      perform_split solverExample [0, 1, 2, 3] = some [[0, 1], [2, 3]] := by
  decide

/-- Claim C3: whenever percolation leaves more than two connected
components, `perform_split` returns the neighbor-joining merge of those
components, and that merge consists of exactly two clusters of components
expanded to their member samples, covering every component member exactly
once. -/
theorem njMerge_two_clusters {W : Type} (S : PercSolver W) (samples : List Nat)
    (cc : List (List Nat)) (hedges : ¬ ((weightedEdges S samples).length = 0))
    (hcc : finalComponents S samples = some cc) (h3 : 2 < cc.length) :
    perform_split S samples = some (njMerge S cc) ∧
      (njMerge S cc).length = 2 ∧ (njMerge S cc).flatten.Perm cc.flatten := by
  constructor
  · unfold perform_split
    rw [if_neg hedges, hcc]
    simp [h3]
  · exact njMerge_spec S cc (by omega)

/-- Witness for C3: the three-cluster instance leaves three components,
and the merge path pairs the first two clusters against the third. -/
theorem njMerge_two_clusters_witness :
    perform_split solverThree [0, 1, 2, 3, 4, 5] =
        some (njMerge solverThree [[0, 1], [2, 3], [4, 5]]) ∧
      (njMerge solverThree [[0, 1], [2, 3], [4, 5]]).length = 2 ∧
      (njMerge solverThree [[0, 1], [2, 3], [4, 5]]).flatten.Perm
        ([[0, 1], [2, 3], [4, 5]] : List (List Nat)).flatten :=
  njMerge_two_clusters solverThree [0, 1, 2, 3, 4, 5] [[0, 1], [2, 3], [4, 5]]
    (by decide) (by decide) (by decide)

/-- Once at least two components exist the percolation loop returns them
at once, whatever weights remain. -/
theorem percolateAsc_stop (nodes : List Nat) (ewp : Int → List (Nat × Nat))
    (sw : List Int) (E : List (Nat × Nat))
    (h2 : 2 ≤ (connected_components nodes E).length) :
    percolateAsc nodes ewp sw E = some (connected_components nodes E) := by
  cases sw with
  | nil =>
    rw [percolateAsc]
    rw [if_neg (by omega)]
  | cons a tl =>
    rw [percolateAsc]
    rw [if_neg (by omega)]

/-- Claim C4: while the graph has at most one connected component, a
percolation round removes exactly the edges of the minimum remaining
weight class (all ties at once), removes at least one present edge, never
re-adds an edge, every surviving edge carries a weight at least the
popped minimum, and as soon as at least two components exist the loop
stops and returns them.  The weight list is the ascending view of the
source's descending list popped from its end; the bucket hypotheses state
that the list covers exactly the present edges. -/
theorem percolation_round (nodes : List Nat) (ewp : Int → List (Nat × Nat))
    (w : Int) (rest : List Int) (edges : List (Nat × Nat))
    (hsorted : (w :: rest).Pairwise (· ≤ ·))
    (hfull : ∀ u ∈ w :: rest, ∀ e ∈ ewp u, e ∈ edges)
    (hne : ewp w ≠ [])
    (hcov : ∀ e ∈ edges, ∃ u ∈ w :: rest, e ∈ ewp u)
    (hone : (connected_components nodes edges).length ≤ 1) :
    percolateAsc nodes ewp (w :: rest) edges =
        percolateAsc nodes ewp rest (edges.filter (fun e => !((ewp w).contains e))) ∧
      (∀ e ∈ edges.filter (fun e => !((ewp w).contains e)), e ∈ edges) ∧
      (∀ e ∈ edges, (e ∈ edges.filter (fun e => !((ewp w).contains e)) ↔ e ∉ ewp w)) ∧
      (∃ e ∈ edges, e ∈ ewp w) ∧
      (∀ e ∈ edges, ∃ u, e ∈ ewp u ∧ w ≤ u) ∧
      (2 ≤ (connected_components nodes
          (edges.filter (fun e => !((ewp w).contains e)))).length →
        percolateAsc nodes ewp (w :: rest) edges =
          some (connected_components nodes
            (edges.filter (fun e => !((ewp w).contains e))))) := by
  have hstep : percolateAsc nodes ewp (w :: rest) edges =
      percolateAsc nodes ewp rest (edges.filter (fun e => !((ewp w).contains e))) := by
    conv_lhs => rw [percolateAsc]
    rw [if_pos hone]
  refine ⟨hstep, ?_, ?_, ?_, ?_, ?_⟩
  · intro e he
    exact (List.mem_filter.mp he).1
  · intro e he
    constructor
    · intro hef hmem
      have h2 := (List.mem_filter.mp hef).2
      have hc : (ewp w).contains e = true := List.elem_iff.mpr hmem
      simp [hc] at h2
      exact h2 hmem
    · intro hnm
      refine List.mem_filter.mpr ⟨he, ?_⟩
      cases hc : (ewp w).contains e with
      | false => rfl
      | true => exact absurd (List.elem_iff.mp hc) hnm
  · obtain ⟨e, he⟩ := List.exists_mem_of_ne_nil _ hne
    exact ⟨e, hfull w (List.mem_cons_self _ _) e he, he⟩
  · intro e he
    obtain ⟨u, hu, heu⟩ := hcov e he
    rcases List.mem_cons.mp hu with rfl | hu2
    · exact ⟨u, heu, le_refl u⟩
    · exact ⟨u, heu, (List.pairwise_cons.mp hsorted).1 u hu2⟩
  · intro h2
    rw [hstep]
    exact percolateAsc_stop nodes ewp rest _ h2

/-- Witness for C4: a three-node path whose lighter edge 0-1 is removed in
the round, after which the components 0 and 1-2 stop the loop. -/
theorem percolation_round_witness :
    percolateAsc exampleNodes exampleEwp [1, 2] exampleEdges =
        percolateAsc exampleNodes exampleEwp [2]
          (exampleEdges.filter (fun e => !((exampleEwp 1).contains e))) ∧
      (∀ e ∈ exampleEdges.filter (fun e => !((exampleEwp 1).contains e)), e ∈ exampleEdges) ∧
      (∀ e ∈ exampleEdges,
        (e ∈ exampleEdges.filter (fun e => !((exampleEwp 1).contains e)) ↔ e ∉ exampleEwp 1)) ∧
      (∃ e ∈ exampleEdges, e ∈ exampleEwp 1) ∧
      (∀ e ∈ exampleEdges, ∃ u, e ∈ exampleEwp u ∧ 1 ≤ u) ∧
      (2 ≤ (connected_components exampleNodes
          (exampleEdges.filter (fun e => !((exampleEwp 1).contains e)))).length →
        percolateAsc exampleNodes exampleEwp [1, 2] exampleEdges =
          some (connected_components exampleNodes
            (exampleEdges.filter (fun e => !((exampleEwp 1).contains e))))) :=
  percolation_round exampleNodes exampleEwp 1 [2] exampleEdges
    (by decide) (by decide) (by decide) (by decide) (by decide)

/-- Claim C7: the recursive partitioning harness run with the vanilla
greedy strategy returns a tree, and on a one-sample matrix that tree is a
single leaf with no internal nodes, whatever the fuel. -/
theorem vanilla_solve_singleton (S : VanillaGreedy) (fuel : Nat) (s : Nat) :
    ∃ t, vanilla_solve S fuel [s] = some t ∧ leafCount t = 1 ∧ internalCount t = 0 := by
  refine ⟨HTree.leaf [s], ?_, rfl, rfl⟩
  unfold vanilla_solve
  cases fuel <;> rfl

/-- Claim C8: the vanilla greedy split sends every sample carrying the
split state left, every sample with a different non-missing state right,
loses or duplicates no sample, and hands exactly the samples with missing
data at the split character to the injected missing-data classifier. -/
theorem vg_perform_split_correct (S : VanillaGreedy) (samples : List Nat)
    (char : Nat) (state : Int) (_hstate : state ≠ S.missing_char) :
    ((vg_perform_split S samples (char, state)).1 ++
        (vg_perform_split S samples (char, state)).2).Perm samples ∧
      (∀ s ∈ samples, vg_value S s char = state →
        s ∈ (vg_perform_split S samples (char, state)).1) ∧
      (∀ s ∈ samples, vg_value S s char ≠ state → vg_value S s char ≠ S.missing_char →
        s ∈ (vg_perform_split S samples (char, state)).2) ∧
      vg_perform_split S samples (char, state) =
        assign_missing S.missing_data_classifier
          ((samples.filter (fun s => !(vg_value S s char == state))).filter
            (fun s => vg_value S s char == S.missing_char))
          (samples.filter (fun s => vg_value S s char == state),
            (samples.filter (fun s => !(vg_value S s char == state))).filter
              (fun s => !(vg_value S s char == S.missing_char))) := by
  refine ⟨?_, ?_, ?_, rfl⟩
  · unfold vg_perform_split
    dsimp only
    refine (assign_missing_flatten _ _ _ _).trans ?_
    have hsplit2 := List.filter_append_perm
      (fun s => vg_value S s char == S.missing_char)
      (samples.filter (fun s => !(vg_value S s char == state)))
    have hsplit1 := List.filter_append_perm
      (fun s => vg_value S s char == state) samples
    rw [List.append_assoc]
    refine List.Perm.trans (List.Perm.append_left _ List.perm_append_comm) ?_
    exact (List.Perm.append_left _ hsplit2).trans hsplit1
  · intro s hs hv
    unfold vg_perform_split
    dsimp only
    obtain ⟨t, ht⟩ := assign_missing_left_sub S.missing_data_classifier
      ((samples.filter (fun s => !(vg_value S s char == state))).filter
        (fun s => vg_value S s char == S.missing_char))
      (samples.filter (fun s => vg_value S s char == state))
      ((samples.filter (fun s => !(vg_value S s char == state))).filter
        (fun s => !(vg_value S s char == S.missing_char)))
    rw [ht]
    apply List.mem_append_left
    exact List.mem_filter.mpr ⟨hs, by simp [hv]⟩
  · intro s hs hv1 hv2
    unfold vg_perform_split
    dsimp only
    obtain ⟨t, ht⟩ := assign_missing_right_sub S.missing_data_classifier
      ((samples.filter (fun s => !(vg_value S s char == state))).filter
        (fun s => vg_value S s char == S.missing_char))
      (samples.filter (fun s => vg_value S s char == state))
      ((samples.filter (fun s => !(vg_value S s char == state))).filter
        (fun s => !(vg_value S s char == S.missing_char)))
    rw [ht]
    apply List.mem_append_left
    exact List.mem_filter.mpr
      ⟨List.mem_filter.mpr ⟨hs, by simp [hv1]⟩, by simp [hv2]⟩

/-- Witness for C8: three samples whose states at character 0 are the
split state 1, the other state 2, and missing. -/
theorem vg_perform_split_correct_witness :
    ((vg_perform_split vgExample [0, 1, 2] (0, 1)).1 ++
      (vg_perform_split vgExample [0, 1, 2] (0, 1)).2).Perm [0, 1, 2] :=
  (vg_perform_split_correct vgExample [0, 1, 2] 0 1 (by decide)).1
